import Mathlib

/-!
Verification of the dominoes chain-feasibility program.

The program decides whether a list of dominoes (pairs of pip values) can be
arranged into a single closed chain, by reducing the question to an Euler
circuit test on the multigraph whose vertices are the distinct pip values
and whose edges are the dominoes.

The embedding below mirrors the source: `getNodes` (vertex extraction via
insertion-ordered deduplication, the JS `Set`), `toAdjacencyMatrixE`
(dense boolean matrix built by folding over the dominoes),
`toAdjencyList` (indices of the true cells of each row),
`dfsE`/`depthFirstSearch` (recursive depth-first traversal; in the
embedding recursion is paid for with an explicit fuel argument, and a
sufficiency theorem shows the chosen fuel is never exhausted),
`isConnectedE`, `allEvenDegree` (occurrence counting through an
insertion-ordered association list, the JS `Map`) and `canChain`.

Steps of the original that can fail at run time (element accesses behind
non-null assertions, `findIndex` results used as indices) are modelled in
the `Option` monad: `none` is a run-time failure of the original.
-/

namespace Dominoes

/-- Pip values; the source's runtime works on plain numbers. -/
abbrev Pip := Int

/-- One domino: an (ordered, as represented) pair of pip values. -/
abbrev Domino := Pip × Pip

/-- The flattened list of all pip halves, in order:
`dominoes.flatMap(id)` applied to a list of pairs. -/
def flatPips : List Domino → List Pip
  | [] => []
  | d :: rest => d.1 :: d.2 :: flatPips rest

/-- Insertion-ordered deduplication, the behaviour of iterating a JS `Set`
built from a list: keep the first occurrence of each element. -/
def dedupFirst (seen : List Pip) : List Pip → List Pip
  | [] => []
  | a :: rest =>
    if a ∈ seen then dedupFirst seen rest else a :: dedupFirst (a :: seen) rest

/-- `getNodes`: the distinct pip values in first-occurrence order,
`[...new Set(dominoes.flatMap(id))]`. -/
def getNodes (dominoes : List Domino) : List Pip :=
  dedupFirst [] (flatPips dominoes)

/-- `nodeToBool` in the source: `nodes.findIndex((node) => node === digit)`.
`none` models the JS result `-1` (not found), which leads to a crash at
every use site in the source. -/
def nodeIdx (nodes : List Pip) (digit : Pip) : Option Nat :=
  match nodes with
  | [] => none
  | n :: rest => if n = digit then some 0 else (nodeIdx rest digit).map (· + 1)

/-- One step of the matrix fold (`fillMatrix`): set cells `(x, y)` and
`(y, x)` of the matrix to `true`, where indices come from `nodeIdx`.
A `none` models the TypeError the source raises when an index is `-1` or a
row access returns `undefined`. -/
def fillMatrixE (nodes : List Pip) (graph : List (List Bool)) (d : Domino) :
    Option (List (List Bool)) :=
  match nodeIdx nodes d.1, nodeIdx nodes d.2 with
  | some i, some j =>
    match graph.get? i with
    | none => none
    | some rowi =>
      match (graph.set i (rowi.set j true)).get? j with
      | none => none
      | some rowj => some ((graph.set i (rowi.set j true)).set j (rowj.set i true))
  | _, _ => none

/-- `toAdjacencyMatrix`: an n-by-n matrix of `false`, filled by folding
`fillMatrix` over the dominoes. -/
def toAdjacencyMatrixE (dominoes : List Domino) : Option (List (List Bool)) :=
  let nodes := getNodes dominoes
  let initMatrix := List.replicate nodes.length (List.replicate nodes.length false)
  dominoes.foldlM (fillMatrixE nodes) initMatrix

/-- `toAdjencyList`: for each row, the indices of its `true` cells
(add indexes, filter unfilled cells, keep indexes). -/
def toAdjencyList (graph : List (List Bool)) : List (List Nat) :=
  graph.map (fun row => ((row.enum.filter (fun p => p.2)).map (fun p => p.1)))

/-- Sequential processing of a list of nodes by a traversal function,
threading the visited state; the `forEach` loop of `depthFirstSearch`. -/
def dfsList (f : Nat → List Bool → Option (List Bool)) :
    List Nat → List Bool → Option (List Bool)
  | [], v => some v
  | u :: rest, v =>
    match f u v with
    | none => none
    | some v2 => dfsList f rest v2

/-- `depthFirstSearch` body, with an explicit fuel argument bounding the
recursion depth (the source recurses freely; `dfs_fuel_sufficient` below
shows the fuel used by `depthFirstSearch` is never exhausted).
Marks the node visited, then recurses into each neighbour that was
unvisited when the neighbour row was filtered.  `none` is either fuel
exhaustion or the TypeError on reading `graph[node]` out of bounds. -/
def dfsE (graph : List (List Nat)) : Nat → Nat → List Bool → Option (List Bool)
  | 0, _, _ => none
  | fuel + 1, node, visited =>
    let v1 := visited.set node true
    match graph.get? node with
    | none => none
    | some row => dfsList (dfsE graph fuel) (row.filter (fun a => !(v1.getD a false))) v1

/-- `depthFirstSearch(graph, visited, node)` with fuel one more than the
number of unvisited entries, which `dfs_fuel_sufficient` proves is enough. -/
def depthFirstSearch (graph : List (List Nat)) (visited : List Bool) (node : Nat) :
    Option (List Bool) :=
  dfsE graph (visited.count false + 1) node visited

/-- `isConnected`: build the vertex list, an all-false visited array and the
adjacency list, run the traversal from index 0, and test that every entry
of the visited array is `true`. -/
def isConnectedE (dominoes : List Domino) : Option Bool :=
  let nodes := getNodes dominoes
  let visited : List Bool := List.replicate nodes.length false
  match toAdjacencyMatrixE dominoes with
  | none => none
  | some m =>
    match depthFirstSearch (toAdjencyList m) visited 0 with
    | none => none
    | some vis => some (vis.all (fun x => x == true))

/-- `addToMap`: the JS `Map` update used by `allEvenDegree` — increment the
count of an existing key in place, otherwise append the key with count 1.
The map is modelled as its insertion-ordered entry list. -/
def addToMap (m : List (Pip × Nat)) (key : Pip) : List (Pip × Nat) :=
  if m.any (fun p => p.1 = key) then
    m.map (fun p => if p.1 = key then (p.1, p.2 + 1) else p)
  else
    m ++ [(key, 1)]

/-- The `Map` of pip-value occurrence counts built inside `allEvenDegree`:
fold `addToMap` over the flattened pip list. -/
def nodeCountsMap (dominoes : List Domino) : List (Pip × Nat) :=
  (flatPips dominoes).foldl addToMap []

/-- `allEvenDegree`: every occurrence count in the map is even. -/
def allEvenDegree (dominoes : List Domino) : Bool :=
  ((nodeCountsMap dominoes).map Prod.snd).all (fun n => n % 2 == 0)

/-- `canChain`: the source expression
`dominoes.length === 0 || (allEvenDegree(dominoes) && isConnected(dominoes))`
with JS short-circuit evaluation made explicit; `none` would be a run-time
failure (`canChainE_eq_some` shows it never happens). -/
def canChainE (dominoes : List Domino) : Option Bool :=
  if dominoes.length = 0 then some true
  else if allEvenDegree dominoes then isConnectedE dominoes
  else some false

/-- The boolean computed by `canChain` (total by `canChainE_eq_some`). -/
def canChain (dominoes : List Domino) : Bool :=
  (canChainE dominoes).getD false

/-- The adjacency list as derived from a domino list (matrix then list),
the structure `isConnected` traverses. -/
def adjacencyOf (dominoes : List Domino) : Option (List (List Nat)) :=
  (toAdjacencyMatrixE dominoes).map toAdjencyList

/-! Specification-side notions, written from the spec's words: the
undirected multigraph whose vertices are the distinct pip values and whose
edges are the dominoes. -/

/-- Two pip values are adjacent when some domino joins them (in either
orientation); a self-loop makes a vertex adjacent to itself. -/
def adjRel (dominoes : List Domino) (a b : Pip) : Prop :=
  (a, b) ∈ dominoes ∨ (b, a) ∈ dominoes

/-- Reachability in the domino multigraph. -/
def reach (dominoes : List Domino) : Pip → Pip → Prop :=
  Relation.ReflTransGen (adjRel dominoes)

/-- Every distinct pip value occurs an even number of times across all
domino halves. -/
def specEvenDegrees (dominoes : List Domino) : Prop :=
  ∀ v ∈ flatPips dominoes, Even ((flatPips dominoes).count v)

/-- The domino multigraph is connected: every two occurring pip values are
joined by a path of dominoes. -/
def specConnected (dominoes : List Domino) : Prop :=
  ∀ a ∈ flatPips dominoes, ∀ b ∈ flatPips dominoes, reach dominoes a b

/-- Adjacency between indices in an adjacency list. -/
def adjIdx (graph : List (List Nat)) (i j : Nat) : Prop :=
  j ∈ graph.getD i []

/-- Reachability between indices in an adjacency list. -/
def reachIdx (graph : List (List Nat)) : Nat → Nat → Prop :=
  Relation.ReflTransGen (adjIdx graph)

/-- Pointwise order on visited arrays: every marked entry stays marked. -/
def visLe (v w : List Bool) : Prop :=
  ∀ i, v.getD i false = true → w.getD i false = true

/-- Renaming the pip values of a domino. -/
def renameDomino (f : Pip → Pip) (d : Domino) : Domino :=
  (f d.1, f d.2)

/-- Cell of a boolean matrix; out-of-range reads give `false`, matching JS
`undefined` coerced to false in boolean positions. -/
def cellB (m : List (List Bool)) (i j : Nat) : Bool :=
  (m.getD i []).getD j false

/-- The edge between matrix indices `p` and `q` contributed by domino `d`. -/
def edgeAt (nodes : List Pip) (d : Domino) (p q : Nat) : Prop :=
  ∃ i j, nodeIdx nodes d.1 = some i ∧ nodeIdx nodes d.2 = some j ∧
    ((p = i ∧ q = j) ∨ (p = j ∧ q = i))

/-! ### Basic list lemmas: `getD`, `set`, `count` -/

theorem getD_set_self {α : Type} (l : List α) {i : Nat} (h : i < l.length) (x d : α) :
    (l.set i x).getD i d = x := by
  rw [List.getD_eq_getD_get?, List.get?_eq_getElem?, List.getElem?_set_self']
  simp [List.getElem?_eq_getElem h]

theorem getD_set_ne {α : Type} (l : List α) {i j : Nat} (h : i ≠ j) (x d : α) :
    (l.set i x).getD j d = l.getD j d := by
  rw [List.getD_eq_getD_get?, List.get?_eq_getElem?, List.getElem?_set_ne h,
    ← List.get?_eq_getElem?, ← List.getD_eq_getD_get?]

theorem lt_length_of_getD_true {l : List Bool} {i : Nat}
    (h : l.getD i false = true) : i < l.length := by
  by_contra hlt
  rw [List.getD_eq_default l false (Nat.le_of_not_lt hlt)] at h
  exact Bool.false_ne_true h

theorem set_eq_self_of_getD_true : ∀ (l : List Bool) (i : Nat),
    l.getD i false = true → l.set i true = l
  | [], _, _ => rfl
  | a :: l, 0, h => by simp_all
  | a :: l, i + 1, h => by
    simpa using set_eq_self_of_getD_true l i h

theorem count_false_set_true : ∀ (l : List Bool) (i : Nat), i < l.length →
    l.getD i false = false → (l.set i true).count false + 1 = l.count false
  | [], i, h, _ => absurd h (by simp)
  | a :: l, 0, _, hf => by
    have : a = false := hf
    subst this
    simp [List.count_cons]
  | a :: l, i + 1, h, hf => by
    have ih := count_false_set_true l i (by simpa using h) (by simpa using hf)
    simp only [List.set_cons_succ, List.count_cons]
    omega

theorem count_false_set_true_le (l : List Bool) (i : Nat) :
    (l.set i true).count false ≤ l.count false := by
  by_cases hlen : i < l.length
  · cases hgd : l.getD i false with
    | false => have := count_false_set_true l i hlen hgd; omega
    | true => rw [set_eq_self_of_getD_true l i hgd]
  · rw [List.set_eq_of_length_le (Nat.le_of_not_lt hlen)]

theorem visLe_refl (v : List Bool) : visLe v v := fun _ h => h

theorem visLe_trans {u v w : List Bool} (h1 : visLe u v) (h2 : visLe v w) :
    visLe u w := fun i h => h2 i (h1 i h)

theorem visLe_set (v : List Bool) (i : Nat) : visLe v (v.set i true) := by
  intro j hj
  rcases Decidable.em (i = j) with rfl | hne
  · exact getD_set_self v (lt_length_of_getD_true hj) true false
  · rwa [getD_set_ne v hne]

theorem getD_set_true (v : List Bool) {i : Nat} (h : i < v.length) :
    (v.set i true).getD i false = true :=
  getD_set_self v h true false

theorem count_false_mono : ∀ {v w : List Bool}, v.length = w.length →
    visLe v w → w.count false ≤ v.count false
  | [], [], _, _ => Nat.le_refl _
  | [], _ :: _, hlen, _ => by simp at hlen
  | _ :: _, [], hlen, _ => by simp at hlen
  | a :: v, b :: w, hlen, hle => by
    have hlen' : v.length = w.length := by simpa using hlen
    have htail : visLe v w := fun i h => hle (i + 1) (by simpa using h)
    have ih := count_false_mono hlen' htail
    have hhead : a = true → b = true := fun ha => hle 0 (by simpa using ha)
    simp only [List.count_cons]
    cases a <;> cases b <;> simp_all <;> omega

theorem count_false_strict : ∀ {v w : List Bool} (u : Nat), v.length = w.length →
    visLe v w → v.getD u false = false → w.getD u false = true →
    w.count false < v.count false
  | [], [], u, _, _, _, hw => by simp at hw
  | [], _ :: _, _, hlen, _, _, _ => by simp at hlen
  | _ :: _, [], _, hlen, _, _, _ => by simp at hlen
  | a :: v, b :: w, 0, hlen, hle, hv, hw => by
    have ha : a = false := by simpa using hv
    have hb : b = true := by simpa using hw
    subst ha; subst hb
    have hlen' : v.length = w.length := by simpa using hlen
    have htail : visLe v w := fun i h => hle (i + 1) (by simpa using h)
    have := count_false_mono hlen' htail
    simp only [List.count_cons]
    simp; omega
  | a :: v, b :: w, u + 1, hlen, hle, hv, hw => by
    have hlen' : v.length = w.length := by simpa using hlen
    have htail : visLe v w := fun i h => hle (i + 1) (by simpa using h)
    have ih := count_false_strict u hlen' htail (by simpa using hv) (by simpa using hw)
    have hhead : a = true → b = true := fun ha => hle 0 (by simpa using ha)
    simp only [List.count_cons]
    cases a <;> cases b <;> simp_all <;> omega

theorem getD_replicate_false (n i : Nat) :
    (List.replicate n false).getD i false = false := by
  rw [List.getD_eq_getD_get?, List.get?_eq_getElem?]
  rcases Decidable.em (i < n) with h | h
  · simp [List.getElem?_replicate, h]
  · rw [List.getElem?_eq_none (by simpa using Nat.le_of_not_lt h)]
    rfl

theorem count_false_replicate (n : Nat) :
    (List.replicate n false).count false = n := by
  simp [List.count_replicate]

/-! ### Vertex extraction: `flatPips`, `dedupFirst`, `getNodes`, `nodeIdx` -/

theorem mem_flatPips : ∀ {dominoes : List Domino} {x : Pip},
    x ∈ flatPips dominoes ↔ ∃ d ∈ dominoes, x = d.1 ∨ x = d.2 := by
  intro dominoes x
  induction dominoes with
  | nil => simp [flatPips]
  | cons d rest ih =>
    simp only [flatPips, List.mem_cons, ih]
    constructor
    · rintro (rfl | rfl | ⟨d', hd', h⟩)
      · exact ⟨d, Or.inl rfl, Or.inl rfl⟩
      · exact ⟨d, Or.inl rfl, Or.inr rfl⟩
      · exact ⟨d', Or.inr hd', h⟩
    · rintro ⟨d', (rfl | hd'), h⟩
      · rcases h with rfl | rfl
        · exact Or.inl rfl
        · exact Or.inr (Or.inl rfl)
      · exact Or.inr (Or.inr ⟨d', hd', h⟩)

theorem length_flatPips : ∀ (dominoes : List Domino),
    (flatPips dominoes).length = 2 * dominoes.length
  | [] => rfl
  | d :: rest => by
    simp only [flatPips, List.length_cons, length_flatPips rest]
    omega

theorem mem_dedupFirst : ∀ {l seen : List Pip} {x : Pip},
    x ∈ dedupFirst seen l ↔ x ∈ l ∧ x ∉ seen := by
  intro l
  induction l with
  | nil => simp [dedupFirst]
  | cons a rest ih =>
    intro seen x
    simp only [dedupFirst]
    split
    · rename_i hmem
      rw [ih]
      constructor
      · rintro ⟨h1, h2⟩
        exact ⟨List.mem_cons_of_mem a h1, h2⟩
      · rintro ⟨h1, h2⟩
        rcases List.mem_cons.mp h1 with rfl | h1'
        · exact absurd hmem h2
        · exact ⟨h1', h2⟩
    · rename_i hmem
      simp only [List.mem_cons, ih, List.mem_cons]
      constructor
      · rintro (rfl | ⟨h1, h2⟩)
        · exact ⟨Or.inl rfl, hmem⟩
        · refine ⟨Or.inr h1, fun hx => h2 (Or.inr hx)⟩
      · rintro ⟨(rfl | h1), h2⟩
        · exact Or.inl rfl
        · rcases Decidable.em (x = a) with rfl | hne
          · exact Or.inl rfl
          · refine Or.inr ⟨h1, fun hx => ?_⟩
            rcases hx with rfl | hx'
            · exact hne rfl
            · exact h2 hx'

theorem nodup_dedupFirst : ∀ (l seen : List Pip), (dedupFirst seen l).Nodup
  | [], _ => List.nodup_nil
  | a :: rest, seen => by
    simp only [dedupFirst]
    split
    · exact nodup_dedupFirst rest seen
    · refine List.Nodup.cons ?_ (nodup_dedupFirst rest (a :: seen))
      intro hmem
      exact (mem_dedupFirst.mp hmem).2 (List.mem_cons_self a seen)

theorem mem_getNodes {dominoes : List Domino} {x : Pip} :
    x ∈ getNodes dominoes ↔ x ∈ flatPips dominoes := by
  unfold getNodes
  rw [mem_dedupFirst]
  simp

theorem nodup_getNodes (dominoes : List Domino) : (getNodes dominoes).Nodup :=
  nodup_dedupFirst _ _

theorem nodeIdx_eq_none : ∀ {l : List Pip} {x : Pip},
    nodeIdx l x = none ↔ x ∉ l := by
  intro l
  induction l with
  | nil => simp [nodeIdx]
  | cons n rest ih =>
    intro x
    simp only [nodeIdx]
    split
    · rename_i heq
      subst heq
      simp
    · rename_i hne
      simp only [Option.map_eq_none', ih, List.mem_cons]
      constructor
      · intro h hx
        rcases hx with rfl | hx
        · exact hne rfl
        · exact h hx
      · intro h hx
        exact h (Or.inr hx)

theorem nodeIdx_some : ∀ {l : List Pip} {x : Pip} {i : Nat},
    nodeIdx l x = some i → i < l.length ∧ l.getD i 0 = x := by
  intro l
  induction l with
  | nil => intro x i h; exact absurd h (by simp [nodeIdx])
  | cons n rest ih =>
    intro x i h
    simp only [nodeIdx] at h
    split at h
    · rename_i heq
      cases h
      simpa using heq
    · rcases Option.map_eq_some'.mp h with ⟨i', hi', rfl⟩
      rcases ih hi' with ⟨h1, h2⟩
      exact ⟨by simpa using h1, by simpa using h2⟩

theorem nodeIdx_isSome_of_mem {l : List Pip} {x : Pip} (h : x ∈ l) :
    ∃ i, nodeIdx l x = some i := by
  cases hn : nodeIdx l x with
  | none => exact absurd (nodeIdx_eq_none.mp hn) (by simpa using h)
  | some i => exact ⟨i, rfl⟩

theorem nodeIdx_getD : ∀ {l : List Pip}, l.Nodup → ∀ {i : Nat}, i < l.length →
    nodeIdx l (l.getD i 0) = some i := by
  intro l
  induction l with
  | nil => intro _ i h; exact absurd h (by simp)
  | cons n rest ih =>
    intro hnd i h
    cases i with
    | zero => simp [nodeIdx]
    | succ i =>
      have hrest : i < rest.length := by simpa using h
      have hmem : rest.getD i 0 ∈ rest := by
        rw [List.getD_eq_getElem rest 0 hrest]
        exact List.getElem_mem hrest
      have hne : n ≠ rest.getD i 0 := by
        intro heq
        exact (List.nodup_cons.mp hnd).1 (heq ▸ hmem)
      simp only [nodeIdx, List.getD_cons_succ]
      rw [if_neg hne, ih (List.nodup_cons.mp hnd).2 hrest]
      rfl

theorem nodeIdx_inj {l : List Pip} {x y : Pip} {i : Nat}
    (hx : nodeIdx l x = some i) (hy : nodeIdx l y = some i) : x = y := by
  have h1 := (nodeIdx_some hx).2
  have h2 := (nodeIdx_some hy).2
  rw [← h1, ← h2]

theorem nodeIdx_lt_length {l : List Pip} {x : Pip} {i : Nat}
    (h : nodeIdx l x = some i) : i < l.length :=
  (nodeIdx_some h).1

/-! ### Degree counting: `addToMap`, `nodeCountsMap`, `allEvenDegree` -/

theorem dedupFirst_congr {s₁ s₂ : List Pip} (h : ∀ x, x ∈ s₁ ↔ x ∈ s₂) :
    ∀ l, dedupFirst s₁ l = dedupFirst s₂ l
  | [] => rfl
  | a :: rest => by
    simp only [dedupFirst]
    rcases Decidable.em (a ∈ s₁) with hmem | hmem
    · rw [if_pos hmem, if_pos ((h a).mp hmem), dedupFirst_congr h rest]
    · rw [if_neg hmem, if_neg (fun hx => hmem ((h a).mpr hx))]
      have h' : ∀ x, x ∈ a :: s₁ ↔ x ∈ a :: s₂ := by
        intro x
        simp only [List.mem_cons, h x]
      rw [dedupFirst_congr h' rest]

theorem addToMap_mem_keys {m : List (Pip × Nat)} {k : Pip}
    (h : k ∈ m.map Prod.fst) :
    addToMap m k = m.map (fun p => if p.1 = k then (p.1, p.2 + 1) else p) := by
  unfold addToMap
  rw [if_pos]
  rcases List.mem_map.mp h with ⟨p, hp, hk⟩
  exact List.any_eq_true.mpr ⟨p, hp, by simp [hk]⟩

theorem addToMap_not_mem_keys {m : List (Pip × Nat)} {k : Pip}
    (h : k ∉ m.map Prod.fst) : addToMap m k = m ++ [(k, 1)] := by
  unfold addToMap
  rw [if_neg]
  intro hany
  rcases List.any_eq_true.mp hany with ⟨p, hp, hpk⟩
  exact h (List.mem_map.mpr ⟨p, hp, by simpa using hpk⟩)

theorem foldl_addToMap_eq : ∀ (l : List Pip) (m : List (Pip × Nat)),
    (m.map Prod.fst).Nodup →
    l.foldl addToMap m =
      m.map (fun p => (p.1, p.2 + l.count p.1)) ++
        (dedupFirst (m.map Prod.fst) l).map (fun k => (k, l.count k))
  | [], m, _ => by simp [dedupFirst]
  | k :: rest, m, hnd => by
    rw [List.foldl_cons]
    rcases Decidable.em (k ∈ m.map Prod.fst) with hk | hk
    · rw [addToMap_mem_keys hk]
      have hkeys : (m.map (fun p => if p.1 = k then (p.1, p.2 + 1) else p)).map Prod.fst
          = m.map Prod.fst := by
        rw [List.map_map]
        refine List.map_congr_left ?_
        intro p _
        by_cases hp : p.1 = k <;> simp [hp]
      rw [foldl_addToMap_eq rest _ (hkeys ▸ hnd), hkeys]
      have hfst : (m.map (fun p => if p.1 = k then (p.1, p.2 + 1) else p)).map
            (fun p => (p.1, p.2 + rest.count p.1))
          = m.map (fun p => (p.1, p.2 + (k :: rest).count p.1)) := by
        rw [List.map_map]
        refine List.map_congr_left ?_
        intro p _
        by_cases hp : p.1 = k
        · have hp' : k = p.1 := hp.symm
          simp only [Function.comp, if_pos hp, List.count_cons, beq_iff_eq, if_pos hp',
            Prod.mk.injEq, true_and]
          omega
        · have hp' : ¬(k = p.1) := fun h => hp h.symm
          simp only [Function.comp, if_neg hp, List.count_cons, beq_iff_eq, if_neg hp',
            Nat.add_zero]
      have hdedup : dedupFirst (m.map Prod.fst) (k :: rest)
          = dedupFirst (m.map Prod.fst) rest := by
        simp only [dedupFirst, if_pos hk]
      have hsnd : (dedupFirst (m.map Prod.fst) rest).map (fun j => (j, rest.count j))
          = (dedupFirst (m.map Prod.fst) rest).map (fun j => (j, (k :: rest).count j)) := by
        refine List.map_congr_left ?_
        intro j hj
        have hjk : ¬(k = j) := fun h => (mem_dedupFirst.mp hj).2 (h ▸ hk)
        simp only [List.count_cons, beq_iff_eq, if_neg hjk, Nat.add_zero]
      rw [hfst, hdedup, ← hsnd]
    · rw [addToMap_not_mem_keys hk]
      have hkeys : (m ++ [(k, 1)]).map Prod.fst = m.map Prod.fst ++ [k] := by
        simp
      have hnd' : ((m ++ [(k, 1)]).map Prod.fst).Nodup := by
        rw [hkeys]
        simp only [List.nodup_append]
        exact ⟨hnd, List.nodup_singleton k, by simpa using hk⟩
      rw [foldl_addToMap_eq rest _ hnd', hkeys]
      have hmap : (m ++ [(k, 1)]).map (fun p : Pip × Nat => (p.1, p.2 + rest.count p.1))
          = m.map (fun p : Pip × Nat => (p.1, p.2 + (k :: rest).count p.1))
            ++ [(k, (k :: rest).count k)] := by
        have hleft : m.map (fun p : Pip × Nat => (p.1, p.2 + rest.count p.1))
            = m.map (fun p : Pip × Nat => (p.1, p.2 + (k :: rest).count p.1)) := by
          refine List.map_congr_left ?_
          intro p hp
          have hpk : ¬(k = p.1) := fun h => hk (h ▸ List.mem_map.mpr ⟨p, hp, rfl⟩)
          simp only [List.count_cons, beq_iff_eq, if_neg hpk, Nat.add_zero]
        rw [List.map_append, hleft]
        simp [List.count_cons]
        omega
      have hdedup : dedupFirst (m.map Prod.fst ++ [k]) rest
          = dedupFirst (k :: m.map Prod.fst) rest := by
        refine dedupFirst_congr ?_ rest
        intro x
        simp only [List.mem_append, List.mem_singleton, List.mem_cons]
        tauto
      have hsnd : (dedupFirst (k :: m.map Prod.fst) rest).map (fun j => (j, rest.count j))
          = (dedupFirst (k :: m.map Prod.fst) rest).map
              (fun j => (j, (k :: rest).count j)) := by
        refine List.map_congr_left ?_
        intro j hj
        have hjk : ¬(k = j) := by
          have h2 := (mem_dedupFirst.mp hj).2
          intro h
          exact h2 (h ▸ List.mem_cons_self k _)
        simp only [List.count_cons, beq_iff_eq, if_neg hjk, Nat.add_zero]
      have hfront : dedupFirst (m.map Prod.fst) (k :: rest)
          = k :: dedupFirst (k :: m.map Prod.fst) rest := by
        simp only [dedupFirst, if_neg hk]
      rw [hmap, hdedup, hsnd, hfront]
      simp

theorem nodeCountsMap_eq (dominoes : List Domino) :
    nodeCountsMap dominoes
      = (getNodes dominoes).map (fun k => (k, (flatPips dominoes).count k)) := by
  unfold nodeCountsMap
  rw [foldl_addToMap_eq (flatPips dominoes) [] (by simp)]
  simp [getNodes]

theorem nodeCountsMap_keys (dominoes : List Domino) :
    (nodeCountsMap dominoes).map Prod.fst = getNodes dominoes := by
  rw [nodeCountsMap_eq, List.map_map]
  have hcomp : (Prod.fst ∘ fun k : Pip => (k, (flatPips dominoes).count k)) = id := rfl
  rw [hcomp, List.map_id]

theorem sum_map_add (L : List Pip) (f g : Pip → Nat) :
    (L.map (fun x => f x + g x)).sum = (L.map f).sum + (L.map g).sum := by
  induction L with
  | nil => rfl
  | cons a rest ih => simp [ih]; omega

theorem sum_ind_zero : ∀ {nodes : List Pip} {a : Pip}, a ∉ nodes →
    (nodes.map (fun k => if a = k then 1 else 0)).sum = 0 := by
  intro nodes
  induction nodes with
  | nil => simp
  | cons n rest ih =>
    intro a ha
    have h1 : a ≠ n := fun h => ha (h ▸ List.mem_cons_self n rest)
    have h2 : a ∉ rest := fun h => ha (List.mem_cons_of_mem n h)
    simp [if_neg h1, ih h2]

theorem sum_ind_one : ∀ {nodes : List Pip}, nodes.Nodup → ∀ {a : Pip}, a ∈ nodes →
    (nodes.map (fun k => if a = k then 1 else 0)).sum = 1 := by
  intro nodes
  induction nodes with
  | nil => intro _ a ha; exact absurd ha (by simp)
  | cons n rest ih =>
    intro hnd a ha
    rcases List.mem_cons.mp ha with rfl | hrest
    · have : a ∉ rest := (List.nodup_cons.mp hnd).1
      simp [sum_ind_zero this]
    · have h1 : a ≠ n := by
        intro h
        exact (List.nodup_cons.mp hnd).1 (h ▸ hrest)
      simp [if_neg h1, ih (List.nodup_cons.mp hnd).2 hrest]

theorem sum_counts : ∀ (l : List Pip) (nodes : List Pip), nodes.Nodup →
    (∀ x ∈ l, x ∈ nodes) → (nodes.map (fun k => l.count k)).sum = l.length
  | [], nodes, _, _ => by simp
  | a :: t, nodes, hnd, hcov => by
    have hmap : nodes.map (fun k => (a :: t).count k)
        = nodes.map (fun k => t.count k + if a = k then 1 else 0) := by
      refine List.map_congr_left ?_
      intro k _
      simp [List.count_cons, beq_iff_eq]
    rw [hmap, sum_map_add, sum_counts t nodes hnd (fun x hx => hcov x (List.mem_cons_of_mem a hx)),
      sum_ind_one hnd (hcov a (List.mem_cons_self a t))]
    simp

theorem nodeCountsMap_sum (dominoes : List Domino) :
    ((nodeCountsMap dominoes).map Prod.snd).sum = 2 * dominoes.length := by
  rw [nodeCountsMap_eq, List.map_map]
  have : (Prod.snd ∘ fun k => (k, (flatPips dominoes).count k))
      = fun k => (flatPips dominoes).count k := rfl
  rw [this, sum_counts (flatPips dominoes) (getNodes dominoes) (nodup_getNodes dominoes)
    (fun x hx => mem_getNodes.mpr hx), length_flatPips]

theorem allEvenDegree_iff_spec (dominoes : List Domino) :
    allEvenDegree dominoes = true ↔ specEvenDegrees dominoes := by
  unfold allEvenDegree specEvenDegrees
  rw [nodeCountsMap_eq, List.map_map, List.all_eq_true]
  constructor
  · intro h v hv
    have := h ((flatPips dominoes).count v) (List.mem_map.mpr ⟨v, mem_getNodes.mpr hv, rfl⟩)
    rw [Nat.even_iff]
    simpa using this
  · intro h c hc
    rcases List.mem_map.mp hc with ⟨k, hk, rfl⟩
    have := h k (mem_getNodes.mp hk)
    rw [Nat.even_iff] at this
    simpa using this

/-! ### The adjacency matrix: `fillMatrixE`, `toAdjacencyMatrixE` -/

theorem getD_of_get? {α : Type} {l : List α} {i : Nat} {x d : α}
    (h : l.get? i = some x) : l.getD i d = x := by
  rw [List.getD_eq_getD_get?, h]
  rfl

theorem get?_eq_some_of_lt {α : Type} {l : List α} {i : Nat} (h : i < l.length) :
    ∃ x, l.get? i = some x := by
  rw [List.get?_eq_getElem?, List.getElem?_eq_getElem h]
  exact ⟨_, rfl⟩

theorem fillMatrixE_eq {nodes : List Pip} {d : Domino} {i j : Nat}
    (hi : nodeIdx nodes d.1 = some i) (hj : nodeIdx nodes d.2 = some j)
    (M : List (List Bool)) :
    fillMatrixE nodes M d =
      match M.get? i with
      | none => none
      | some rowi =>
        match (M.set i (rowi.set j true)).get? j with
        | none => none
        | some rowj => some ((M.set i (rowi.set j true)).set j (rowj.set i true)) := by
  unfold fillMatrixE
  rw [hi, hj]

theorem cellB_update (M : List (List Bool)) {t : Nat} (row' : List Bool)
    (p q : Nat) (hp : p = t → t < M.length) :
    cellB (M.set t row') p q
      = if p = t then row'.getD q false else cellB M p q := by
  unfold cellB
  rcases Decidable.em (p = t) with rfl | hne
  · rw [if_pos rfl, getD_set_self M (hp rfl) row' []]
  · rw [if_neg hne, getD_set_ne M (fun h => hne h.symm) row' []]

theorem fillMatrixE_spec {nodes : List Pip} {M : List (List Bool)} {n : Nat}
    {d : Domino} {i j : Nat}
    (hM : M.length = n) (hrows : ∀ row ∈ M, row.length = n)
    (hi : nodeIdx nodes d.1 = some i) (hj : nodeIdx nodes d.2 = some j)
    (hin : i < n) (hjn : j < n) :
    ∃ M', fillMatrixE nodes M d = some M' ∧ M'.length = n ∧
      (∀ row ∈ M', row.length = n) ∧
      (∀ p q, cellB M' p q = true ↔
        (cellB M p q = true ∨ (p = i ∧ q = j) ∨ (p = j ∧ q = i))) := by
  have hiM : i < M.length := hM ▸ hin
  have hjM : j < M.length := hM ▸ hjn
  obtain ⟨rowi, hrowi⟩ : ∃ r, M.get? i = some r := get?_eq_some_of_lt hiM
  have hrowi_mem : rowi ∈ M := List.get?_mem hrowi
  have hrowi_len : rowi.length = n := hrows rowi hrowi_mem
  have hrowi_getD : M.getD i [] = rowi := getD_of_get? hrowi
  set g1 := M.set i (rowi.set j true) with hg1
  have hg1_len : g1.length = M.length := List.length_set M i _
  obtain ⟨rowj, hrowj⟩ : ∃ r, g1.get? j = some r :=
    get?_eq_some_of_lt (hg1_len ▸ hjM)
  have hrowj_mem : rowj ∈ g1 := List.get?_mem hrowj
  have hrowj_len : rowj.length = n := by
    rcases List.mem_or_eq_of_mem_set hrowj_mem with h | h
    · exact hrows rowj h
    · rw [h, List.length_set]
      exact hrowi_len
  have hrowj_getD : g1.getD j [] = rowj := getD_of_get? hrowj
  refine ⟨g1.set j (rowj.set i true), ?_, ?_, ?_, ?_⟩
  · rw [fillMatrixE_eq hi hj M, hrowi]
    show (match (M.set i (rowi.set j true)).get? j with
      | none => none
      | some rowj => some ((M.set i (rowi.set j true)).set j (rowj.set i true)))
      = some (g1.set j (rowj.set i true))
    rw [← hg1, hrowj]
  · rw [List.length_set, hg1_len, hM]
  · intro row hrow
    rcases List.mem_or_eq_of_mem_set hrow with h | h
    · rcases List.mem_or_eq_of_mem_set h with h' | h'
      · exact hrows row h'
      · rw [h', List.length_set]
        exact hrowi_len
    · rw [h, List.length_set]
      exact hrowj_len
  · intro p q
    have hcell2 : cellB (g1.set j (rowj.set i true)) p q
        = if p = j then (rowj.set i true).getD q false else cellB g1 p q :=
      cellB_update g1 _ p q (fun _ => hg1_len ▸ hjM)
    have hcell1 : cellB g1 p q
        = if p = i then (rowi.set j true).getD q false else cellB M p q :=
      cellB_update M _ p q (fun _ => hiM)
    have hrj : ∀ r : List Bool, r.length = n →
        ∀ t, t < n → ∀ s, (r.set t true).getD s false
          = if s = t then true else r.getD s false := by
      intro r hr t ht s
      rcases Decidable.em (s = t) with rfl | hne
      · rw [if_pos rfl, getD_set_self r (hr ▸ ht) true false]
      · rw [if_neg hne, getD_set_ne r (fun h => hne h.symm) true false]
    have hrowj_cell : ∀ s, rowj.getD s false = cellB g1 j s := by
      intro s
      unfold cellB
      rw [hrowj_getD]
    have hrowi_cell : ∀ s, rowi.getD s false = cellB M i s := by
      intro s
      unfold cellB
      rw [hrowi_getD]
    have hcell1j : cellB g1 j q
        = if j = i then (rowi.set j true).getD q false else cellB M j q :=
      cellB_update M _ j q (fun _ => hiM)
    rw [hcell2, hrj rowj hrowj_len i hin]
    by_cases hpj : p = j
    · rw [if_pos hpj]
      by_cases hqi : q = i
      · rw [if_pos hqi]
        exact iff_of_true rfl (Or.inr (Or.inr ⟨hpj, hqi⟩))
      · rw [if_neg hqi, hrowj_cell q, hcell1j]
        by_cases hji : j = i
        · rw [if_pos hji, hrj rowi hrowi_len j hjn]
          by_cases hqj : q = j
          · rw [if_pos hqj]
            exact iff_of_true rfl (Or.inr (Or.inl ⟨hpj.trans hji, hqj⟩))
          · rw [if_neg hqj, hrowi_cell q]
            constructor
            · intro h
              refine Or.inl ?_
              rw [hpj, hji]
              exact h
            · rintro (h | ⟨_, hqj'⟩ | ⟨_, hqi'⟩)
              · rw [hpj, hji] at h
                exact h
              · exact absurd hqj' hqj
              · exact absurd hqi' hqi
        · rw [if_neg hji]
          constructor
          · intro h
            refine Or.inl ?_
            rw [hpj]
            exact h
          · rintro (h | ⟨hpi', _⟩ | ⟨_, hqi'⟩)
            · rw [hpj] at h
              exact h
            · exact absurd (hpj.symm.trans hpi') hji
            · exact absurd hqi' hqi
    · rw [if_neg hpj, hcell1]
      by_cases hpi : p = i
      · rw [if_pos hpi, hrj rowi hrowi_len j hjn]
        by_cases hqj : q = j
        · rw [if_pos hqj]
          exact iff_of_true rfl (Or.inr (Or.inl ⟨hpi, hqj⟩))
        · rw [if_neg hqj, hrowi_cell q]
          constructor
          · intro h
            refine Or.inl ?_
            rw [hpi]
            exact h
          · rintro (h | ⟨_, hqj'⟩ | ⟨hpj', _⟩)
            · rw [hpi] at h
              exact h
            · exact absurd hqj' hqj
            · exact absurd hpj' hpj
      · rw [if_neg hpi]
        constructor
        · intro h
          exact Or.inl h
        · rintro (h | ⟨hpi', _⟩ | ⟨hpj', _⟩)
          · exact h
          · exact absurd hpi' hpi
          · exact absurd hpj' hpj

theorem foldlM_fillMatrixE_spec {nodes : List Pip} {n : Nat} (hn : nodes.length = n) :
    ∀ (l : List Domino) (M : List (List Bool)),
    M.length = n → (∀ row ∈ M, row.length = n) →
    (∀ d ∈ l, d.1 ∈ nodes ∧ d.2 ∈ nodes) →
    ∃ M', List.foldlM (fillMatrixE nodes) M l = some M' ∧ M'.length = n ∧
      (∀ row ∈ M', row.length = n) ∧
      (∀ p q, cellB M' p q = true ↔
        (cellB M p q = true ∨ ∃ d ∈ l, edgeAt nodes d p q))
  | [], M, hM, hrows, _ => ⟨M, by simp, hM, hrows, by simp⟩
  | d :: rest, M, hM, hrows, hmem => by
    obtain ⟨i, hi⟩ := nodeIdx_isSome_of_mem (hmem d (List.mem_cons_self d rest)).1
    obtain ⟨j, hj⟩ := nodeIdx_isSome_of_mem (hmem d (List.mem_cons_self d rest)).2
    have hin : i < n := hn ▸ nodeIdx_lt_length hi
    have hjn : j < n := hn ▸ nodeIdx_lt_length hj
    obtain ⟨M1, hM1, hlen1, hrows1, hcell1⟩ := fillMatrixE_spec hM hrows hi hj hin hjn
    obtain ⟨M', hM', hlen', hrows', hcell'⟩ :=
      foldlM_fillMatrixE_spec hn rest M1 hlen1 hrows1
        (fun d' hd' => hmem d' (List.mem_cons_of_mem _ hd'))
    refine ⟨M', ?_, hlen', hrows', ?_⟩
    · rw [List.foldlM_cons, hM1]
      exact hM'
    · intro p q
      have hedge : edgeAt nodes d p q ↔ ((p = i ∧ q = j) ∨ (p = j ∧ q = i)) := by
        constructor
        · rintro ⟨i', j', hi', hj', h⟩
          have hii : i' = i := Option.some.inj (hi'.symm.trans hi)
          have hjj : j' = j := Option.some.inj (hj'.symm.trans hj)
          rw [hii, hjj] at h
          exact h
        · intro h
          exact ⟨i, j, hi, hj, h⟩
      rw [hcell' p q, hcell1 p q]
      constructor
      · rintro ((h | h) | ⟨d', hd', h⟩)
        · exact Or.inl h
        · exact Or.inr ⟨d, List.mem_cons_self d rest, hedge.mpr h⟩
        · exact Or.inr ⟨d', List.mem_cons_of_mem d hd', h⟩
      · rintro (h | ⟨d', hd', h⟩)
        · exact Or.inl (Or.inl h)
        · rcases List.mem_cons.mp hd' with rfl | hd''
          · exact Or.inl (Or.inr (hedge.mp h))
          · exact Or.inr ⟨d', hd'', h⟩

theorem toAdjacencyMatrixE_spec (dominoes : List Domino) :
    ∃ M, toAdjacencyMatrixE dominoes = some M ∧
      M.length = (getNodes dominoes).length ∧
      (∀ row ∈ M, row.length = (getNodes dominoes).length) ∧
      (∀ p q, cellB M p q = true ↔
        ∃ d ∈ dominoes, edgeAt (getNodes dominoes) d p q) := by
  set nodes := getNodes dominoes with hnodes
  set n := nodes.length with hn
  have hinit_len : (List.replicate n (List.replicate n false)).length = n := by simp
  have hinit_rows : ∀ row ∈ List.replicate n (List.replicate n false), row.length = n := by
    intro row hrow
    rw [(List.mem_replicate.mp hrow).2]
    simp
  have hinit_cell : ∀ p q, cellB (List.replicate n (List.replicate n false)) p q = false := by
    intro p q
    unfold cellB
    rcases Decidable.em (p < n) with hp | hp
    · have : (List.replicate n (List.replicate n false)).getD p [] = List.replicate n false := by
        rw [List.getD_eq_getElem _ _ (by simpa using hp)]
        exact List.getElem_replicate _ _
      rw [this]
      exact getD_replicate_false n q
    · have houter : (List.replicate n (List.replicate n false)).getD p [] = [] :=
        List.getD_eq_default _ _ (by simpa using Nat.le_of_not_lt hp)
      rw [houter]
      rfl
  have hmem : ∀ d ∈ dominoes, d.1 ∈ nodes ∧ d.2 ∈ nodes := by
    intro d hd
    constructor
    · exact mem_getNodes.mpr (mem_flatPips.mpr ⟨d, hd, Or.inl rfl⟩)
    · exact mem_getNodes.mpr (mem_flatPips.mpr ⟨d, hd, Or.inr rfl⟩)
  obtain ⟨M, hM, hlen, hrows, hcell⟩ :=
    foldlM_fillMatrixE_spec rfl dominoes (List.replicate n (List.replicate n false))
      hinit_len hinit_rows hmem
  refine ⟨M, hM, hlen, hrows, ?_⟩
  intro p q
  rw [hcell p q, hinit_cell p q]
  simp

/-! ### The adjacency list: `toAdjencyList` -/

theorem mem_trueIdxs_enumFrom : ∀ (row : List Bool) (k j : Nat),
    (j ∈ ((row.enumFrom k).filter (fun p => p.2)).map (fun p => p.1)) ↔
      ∃ m, j = k + m ∧ row.getD m false = true
  | [], k, j => by simp [List.enumFrom]
  | b :: rest, k, j => by
    have hrec := mem_trueIdxs_enumFrom rest (k + 1) j
    show (j ∈ (((k, b) :: rest.enumFrom (k + 1)).filter (fun p => p.2)).map
      (fun p => p.1)) ↔ _
    cases b with
    | false =>
      rw [List.filter_cons_of_neg (by simp)]
      rw [hrec]
      constructor
      · rintro ⟨m, rfl, hm⟩
        exact ⟨m + 1, by omega, by simpa using hm⟩
      · rintro ⟨m, rfl, hm⟩
        cases m with
        | zero => simp at hm
        | succ m => exact ⟨m, by omega, by simpa using hm⟩
    | true =>
      rw [List.filter_cons_of_pos (by simp)]
      simp only [List.map_cons, List.mem_cons]
      rw [hrec]
      constructor
      · rintro (rfl | ⟨m, rfl, hm⟩)
        · exact ⟨0, by omega, by simp⟩
        · exact ⟨m + 1, by omega, by simpa using hm⟩
      · rintro ⟨m, rfl, hm⟩
        cases m with
        | zero => exact Or.inl (by omega)
        | succ m => exact Or.inr ⟨m, by omega, by simpa using hm⟩

theorem getD_map_of_default {α β : Type} (f : α → List β) (M : List α) (i : Nat)
    (dα : α) (h : f dα = []) : (M.map f).getD i [] = f (M.getD i dα) := by
  rcases Decidable.em (i < M.length) with hi | hi
  · rw [List.getD_eq_getElem _ _ (by simpa using hi), List.getD_eq_getElem _ _ hi]
    simp
  · rw [List.getD_eq_default _ _ (by simpa using Nat.le_of_not_lt hi),
      List.getD_eq_default _ _ (Nat.le_of_not_lt hi), h]

theorem mem_toAdjencyList_getD (M : List (List Bool)) (i j : Nat) :
    (j ∈ (toAdjencyList M).getD i []) ↔ cellB M i j = true := by
  unfold toAdjencyList
  rw [getD_map_of_default _ M i [] rfl]
  show (j ∈ (((M.getD i []).enumFrom 0).filter (fun p => p.2)).map (fun p => p.1)) ↔ _
  rw [mem_trueIdxs_enumFrom (M.getD i []) 0 j]
  unfold cellB
  constructor
  · rintro ⟨m, rfl, hm⟩
    simpa using hm
  · intro h
    exact ⟨j, by omega, h⟩

theorem toAdjencyList_length (M : List (List Bool)) :
    (toAdjencyList M).length = M.length := by
  simp [toAdjencyList]

theorem adjIdx_toAdjencyList (M : List (List Bool)) (i j : Nat) :
    adjIdx (toAdjencyList M) i j ↔ cellB M i j = true :=
  mem_toAdjencyList_getD M i j

theorem cellB_lt {M : List (List Bool)} {n : Nat}
    (hrows : ∀ row ∈ M, row.length = n) {i j : Nat}
    (h : cellB M i j = true) : j < n := by
  unfold cellB at h
  have hj := lt_length_of_getD_true h
  rcases Decidable.em (i < M.length) with hi | hi
  · have hmem : M.getD i [] ∈ M := by
      rw [List.getD_eq_getElem _ _ hi]
      exact List.getElem_mem hi
    rw [hrows _ hmem] at hj
    exact hj
  · rw [List.getD_eq_default _ _ (Nat.le_of_not_lt hi)] at hj
    exact absurd hj (by simp)

/-! ### Depth-first search: termination, monotonicity, closure, soundness

One induction on the fuel establishes, for `dfsE` and `dfsList` together:
the chosen fuel is never exhausted (the source's recursion terminates), the
visited array only grows, the visited node and all its neighbours end up
marked, every freshly marked vertex has all its neighbours marked, and every
marked vertex is reachable from the start. -/

theorem dfs_fuel_induction (graph : List (List Nat)) (n : Nat)
    (hglen : graph.length = n)
    (hgbound : ∀ i j, (j ∈ graph.getD i []) → j < n) :
    ∀ fuel : Nat,
    ((∀ (node : Nat) (v : List Bool), v.length = n → node < n →
      (v.set node true).count false < fuel →
      ∃ v', dfsE graph fuel node v = some v' ∧ v'.length = n ∧ visLe v v' ∧
        v'.getD node false = true ∧
        (∀ j, (j ∈ graph.getD node []) → v'.getD j false = true) ∧
        (∀ i, v'.getD i false = true → v.getD i false = false →
          ∀ j, (j ∈ graph.getD i []) → v'.getD j false = true) ∧
        (∀ i, v'.getD i false = true →
          v.getD i false = true ∨ reachIdx graph node i))
    ∧
    (∀ (L : List Nat) (v0 w : List Bool) (r : Nat), v0.length = n → w.length = n →
      (∀ u ∈ L, u < n ∧ v0.getD u false = false) →
      visLe v0 w →
      (∀ u ∈ L, reachIdx graph r u) →
      v0.count false ≤ fuel →
      ∃ w', dfsList (dfsE graph fuel) L w = some w' ∧ w'.length = n ∧ visLe w w' ∧
        (∀ u ∈ L, w'.getD u false = true) ∧
        (∀ i, w'.getD i false = true → w.getD i false = false →
          ∀ j, (j ∈ graph.getD i []) → w'.getD j false = true) ∧
        (∀ i, w'.getD i false = true →
          w.getD i false = true ∨ reachIdx graph r i))) := by
  intro fuel
  induction fuel with
  | zero =>
    constructor
    · intro node v _ _ hfuel
      exact absurd hfuel (by omega)
    · intro L v0 w r hv0 hw hL hle hreach hcount
      cases L with
      | nil =>
        refine ⟨w, rfl, hw, visLe_refl w, by simp, ?_, ?_⟩
        · intro i h1 h2 j _
          rw [h1] at h2
          exact absurd h2 (by simp)
        · intro i h
          exact Or.inl h
      | cons u rest =>
        obtain ⟨hu, hv0u⟩ := hL u (List.mem_cons_self u rest)
        have := count_false_set_true v0 u (hv0 ▸ hu) hv0u
        omega
  | succ fuel ih =>
    have main : ∀ (node : Nat) (v : List Bool), v.length = n → node < n →
        (v.set node true).count false < fuel + 1 →
        ∃ v', dfsE graph (fuel + 1) node v = some v' ∧ v'.length = n ∧ visLe v v' ∧
          v'.getD node false = true ∧
          (∀ j, (j ∈ graph.getD node []) → v'.getD j false = true) ∧
          (∀ i, v'.getD i false = true → v.getD i false = false →
            ∀ j, (j ∈ graph.getD i []) → v'.getD j false = true) ∧
          (∀ i, v'.getD i false = true →
            v.getD i false = true ∨ reachIdx graph node i) := by
      intro node v hv hnode hfuel
      obtain ⟨row, hrow⟩ :=
        get?_eq_some_of_lt (show node < graph.length from hglen.symm ▸ hnode)
      have hrowD : graph.getD node [] = row := getD_of_get? hrow
      have hv1len : (v.set node true).length = n := by
        rw [List.length_set]
        exact hv
      have hstep : dfsE graph (fuel + 1) node v
          = dfsList (dfsE graph fuel)
              (row.filter (fun a => !((v.set node true).getD a false)))
              (v.set node true) := by
        simp only [dfsE]
        rw [hrow]
      have hLmem : ∀ u ∈ row.filter (fun a => !((v.set node true).getD a false)),
          u < n ∧ (v.set node true).getD u false = false := by
        intro u hu
        obtain ⟨humem, hucond⟩ := List.mem_filter.mp hu
        refine ⟨hgbound node u (hrowD ▸ humem), ?_⟩
        simpa using hucond
      have hLreach : ∀ u ∈ row.filter (fun a => !((v.set node true).getD a false)),
          reachIdx graph node u := by
        intro u hu
        obtain ⟨humem, _⟩ := List.mem_filter.mp hu
        exact Relation.ReflTransGen.single (by
          unfold adjIdx
          rw [hrowD]
          exact humem)
      obtain ⟨w', hw', hwlen, hwle, hmark, hclosure, hsound⟩ :=
        ih.2 (row.filter (fun a => !((v.set node true).getD a false)))
          (v.set node true) (v.set node true) node hv1len hv1len hLmem
          (visLe_refl _) hLreach (by omega)
      have hmarked_node : w'.getD node false = true :=
        hwle node (getD_set_true v (hv.symm ▸ hnode))
      have hnodeclose : ∀ j, (j ∈ graph.getD node []) → w'.getD j false = true := by
        intro j hj
        rw [hrowD] at hj
        cases hvj : (v.set node true).getD j false with
        | true => exact hwle j hvj
        | false =>
          refine hmark j (List.mem_filter.mpr ⟨hj, ?_⟩)
          rw [hvj]
          rfl
      refine ⟨w', by rw [hstep]; exact hw', hwlen,
        visLe_trans (visLe_set v node) hwle, hmarked_node, hnodeclose, ?_, ?_⟩
      · intro i h1 h2 j hj
        cases hv1 : (v.set node true).getD i false with
        | true =>
          rcases Decidable.em (i = node) with rfl | hne
          · exact hnodeclose j hj
          · rw [getD_set_ne v (fun h => hne h.symm) true false] at hv1
            rw [hv1] at h2
            exact absurd h2 (by simp)
        | false => exact hclosure i h1 hv1 j hj
      · intro i h
        rcases hsound i h with hv1 | hr
        · rcases Decidable.em (i = node) with rfl | hne
          · exact Or.inr Relation.ReflTransGen.refl
          · rw [getD_set_ne v (fun h' => hne h'.symm) true false] at hv1
            exact Or.inl hv1
        · exact Or.inr hr
    refine ⟨main, ?_⟩
    intro L
    induction L with
    | nil =>
      intro v0 w r hv0 hw hL hle hreach hcount
      refine ⟨w, rfl, hw, visLe_refl w, by simp, ?_, ?_⟩
      · intro i h1 h2 j _
        rw [h1] at h2
        exact absurd h2 (by simp)
      · intro i h
        exact Or.inl h
    | cons u rest ihL =>
      intro v0 w r hv0 hw hL hle hreach hcount
      obtain ⟨hu, hv0u⟩ := hL u (List.mem_cons_self u rest)
      have hfuelu : (w.set u true).count false < fuel + 1 := by
        cases hwu : w.getD u false with
        | false =>
          have h1 := count_false_set_true w u (hw ▸ hu) hwu
          have h2 := count_false_mono (hv0.trans hw.symm) hle
          omega
        | true =>
          rw [set_eq_self_of_getD_true w u hwu]
          have h2 := count_false_strict u (hv0.trans hw.symm) hle hv0u hwu
          omega
      obtain ⟨w1, hw1, hlen1, hle1, hmark1, hnodecl1, hcl1, hsound1⟩ :=
        main u w hw hu hfuelu
      obtain ⟨w', hw', hlen', hle', hmark', hcl', hsound'⟩ :=
        ihL v0 w1 r hv0 hlen1
          (fun u' hu' => hL u' (List.mem_cons_of_mem u hu'))
          (visLe_trans hle hle1)
          (fun u' hu' => hreach u' (List.mem_cons_of_mem u hu'))
          hcount
      have hstep : dfsList (dfsE graph (fuel + 1)) (u :: rest) w
          = dfsList (dfsE graph (fuel + 1)) rest w1 := by
        simp only [dfsList]
        rw [hw1]
      refine ⟨w', by rw [hstep]; exact hw', hlen', visLe_trans hle1 hle', ?_, ?_, ?_⟩
      · intro u' hu'
        rcases List.mem_cons.mp hu' with rfl | hrest
        · exact hle' u' hmark1
        · exact hmark' u' hrest
      · intro i h1 h2 j hj
        cases hw1i : w1.getD i false with
        | true => exact hle' j (hcl1 i hw1i h2 j hj)
        | false => exact hcl' i h1 hw1i j hj
      · intro i h
        rcases hsound' i h with hw1i | hr
        · rcases hsound1 i hw1i with hwi | hru
          · exact Or.inl hwi
          · exact Or.inr (Relation.ReflTransGen.trans
              (hreach u (List.mem_cons_self u rest)) hru)
        · exact Or.inr hr

theorem depthFirstSearch_all_false {graph : List (List Nat)} {n : Nat}
    (hglen : graph.length = n)
    (hgbound : ∀ i j, (j ∈ graph.getD i []) → j < n) (hn : 0 < n) :
    ∃ v', depthFirstSearch graph (List.replicate n false) 0 = some v' ∧
      v'.length = n ∧ (∀ i, v'.getD i false = true ↔ reachIdx graph 0 i) := by
  have hvlen : (List.replicate n false).length = n := by simp
  have hcount : ((List.replicate n false).set 0 true).count false
      < (List.replicate n false).count false + 1 := by
    have h1 := count_false_set_true (List.replicate n false) 0 (by simpa using hn)
      (getD_replicate_false n 0)
    omega
  obtain ⟨v', hv', hlen, hle, hmark, hnodecl, hcl, hsound⟩ :=
    (dfs_fuel_induction graph n hglen hgbound
      ((List.replicate n false).count false + 1)).1 0 (List.replicate n false)
      hvlen hn hcount
  refine ⟨v', hv', hlen, ?_⟩
  intro i
  constructor
  · intro h
    rcases hsound i h with h0 | hr
    · rw [getD_replicate_false n i] at h0
      exact absurd h0 (by simp)
    · exact hr
  · intro hr
    induction hr with
    | refl => exact hmark
    | tail hab hbc ih =>
      rename_i b c
      exact hcl b ih (getD_replicate_false n b) c hbc

theorem reach_symm {dominoes : List Domino} : ∀ {x y : Pip},
    reach dominoes x y → reach dominoes y x := by
  intro x y h
  induction h with
  | refl => exact Relation.ReflTransGen.refl
  | tail hab hbc ih =>
    rename_i b c
    have hcb : adjRel dominoes c b := by
      unfold adjRel at hbc ⊢
      tauto
    exact Relation.ReflTransGen.head hcb ih

theorem adj_transfer_fwd {dominoes : List Domino} {graph : List (List Nat)}
    (hadj : ∀ p q, adjIdx graph p q ↔
      ∃ d ∈ dominoes, edgeAt (getNodes dominoes) d p q) :
    ∀ x y, adjRel dominoes x y → ∀ i, nodeIdx (getNodes dominoes) x = some i →
    ∃ j, nodeIdx (getNodes dominoes) y = some j ∧ adjIdx graph i j := by
  intro x y hxy i hi
  have hy : y ∈ getNodes dominoes := by
    rcases hxy with h | h
    · exact mem_getNodes.mpr (mem_flatPips.mpr ⟨(x, y), h, Or.inr rfl⟩)
    · exact mem_getNodes.mpr (mem_flatPips.mpr ⟨(y, x), h, Or.inl rfl⟩)
  obtain ⟨j, hj⟩ := nodeIdx_isSome_of_mem hy
  refine ⟨j, hj, (hadj i j).mpr ?_⟩
  rcases hxy with h | h
  · exact ⟨(x, y), h, i, j, hi, hj, Or.inl ⟨rfl, rfl⟩⟩
  · exact ⟨(y, x), h, j, i, hj, hi, Or.inr ⟨rfl, rfl⟩⟩

theorem adj_transfer_bwd {dominoes : List Domino} {graph : List (List Nat)}
    (hadj : ∀ p q, adjIdx graph p q ↔
      ∃ d ∈ dominoes, edgeAt (getNodes dominoes) d p q) :
    ∀ i j, adjIdx graph i j → ∀ x, nodeIdx (getNodes dominoes) x = some i →
    ∃ y, nodeIdx (getNodes dominoes) y = some j ∧ adjRel dominoes x y := by
  intro i j hij x hx
  obtain ⟨d, hd, i', j', hi', hj', hcase⟩ := (hadj i j).mp hij
  rcases hcase with ⟨rfl, rfl⟩ | ⟨rfl, rfl⟩
  · have hx1 : x = d.1 := nodeIdx_inj hx hi'
    refine ⟨d.2, hj', Or.inl ?_⟩
    rw [hx1]
    exact hd
  · have hx2 : x = d.2 := nodeIdx_inj hx hj'
    refine ⟨d.1, hi', Or.inr ?_⟩
    rw [hx2]
    exact hd

theorem reach_transfer_fwd {dominoes : List Domino} {graph : List (List Nat)}
    (hadj : ∀ p q, adjIdx graph p q ↔
      ∃ d ∈ dominoes, edgeAt (getNodes dominoes) d p q) :
    ∀ x y, reach dominoes x y → ∀ i, nodeIdx (getNodes dominoes) x = some i →
    ∃ j, nodeIdx (getNodes dominoes) y = some j ∧ reachIdx graph i j := by
  intro x y h
  induction h with
  | refl =>
    intro i hi
    exact ⟨i, hi, Relation.ReflTransGen.refl⟩
  | tail hab hbc ih =>
    rename_i b c
    intro i hi
    obtain ⟨jb, hjb, hrb⟩ := ih i hi
    obtain ⟨jc, hjc, hadjc⟩ := adj_transfer_fwd hadj b c hbc jb hjb
    exact ⟨jc, hjc, Relation.ReflTransGen.tail hrb hadjc⟩

theorem reach_transfer_bwd {dominoes : List Domino} {graph : List (List Nat)}
    (hadj : ∀ p q, adjIdx graph p q ↔
      ∃ d ∈ dominoes, edgeAt (getNodes dominoes) d p q) :
    ∀ i j, reachIdx graph i j → ∀ x, nodeIdx (getNodes dominoes) x = some i →
    ∃ y, nodeIdx (getNodes dominoes) y = some j ∧ reach dominoes x y := by
  intro i j h
  induction h with
  | refl =>
    intro x hx
    exact ⟨x, hx, Relation.ReflTransGen.refl⟩
  | tail hab hbc ih =>
    rename_i b c
    intro x hx
    obtain ⟨yb, hyb, hrb⟩ := ih x hx
    obtain ⟨yc, hyc, hadjc⟩ := adj_transfer_bwd hadj b c hbc yb hyb
    exact ⟨yc, hyc, Relation.ReflTransGen.tail hrb hadjc⟩

theorem getNodes_length_pos {dominoes : List Domino} (hne : dominoes ≠ []) :
    0 < (getNodes dominoes).length := by
  cases dominoes with
  | nil => exact absurd rfl hne
  | cons d rest =>
    have : d.1 ∈ getNodes (d :: rest) :=
      mem_getNodes.mpr (mem_flatPips.mpr ⟨d, List.mem_cons_self d rest, Or.inl rfl⟩)
    exact List.length_pos.mpr (List.ne_nil_of_mem this)

theorem specConnected_iff_reachIdx {dominoes : List Domino} {graph : List (List Nat)}
    (hadj : ∀ p q, adjIdx graph p q ↔
      ∃ d ∈ dominoes, edgeAt (getNodes dominoes) d p q)
    (hn : 0 < (getNodes dominoes).length) :
    specConnected dominoes ↔
      ∀ i, i < (getNodes dominoes).length → reachIdx graph 0 i := by
  set nodes := getNodes dominoes with hnodes
  have hnd : nodes.Nodup := nodup_getNodes dominoes
  have hx0 : nodeIdx nodes (nodes.getD 0 0) = some 0 := nodeIdx_getD hnd hn
  have hx0mem : nodes.getD 0 0 ∈ flatPips dominoes := by
    refine mem_getNodes.mp ?_
    rw [List.getD_eq_getElem _ _ hn]
    exact List.getElem_mem hn
  constructor
  · intro hconn i hi
    have hymem : nodes.getD i 0 ∈ flatPips dominoes := by
      refine mem_getNodes.mp ?_
      rw [List.getD_eq_getElem _ _ hi]
      exact List.getElem_mem hi
    obtain ⟨j, hj, hr⟩ := reach_transfer_fwd hadj _ _
      (hconn _ hx0mem _ hymem) 0 hx0
    have hji : j = i := Option.some.inj (hj.symm.trans (nodeIdx_getD hnd hi))
    rw [← hji]
    exact hr
  · intro hall a ha b hb
    have hamem : a ∈ nodes := mem_getNodes.mpr ha
    have hbmem : b ∈ nodes := mem_getNodes.mpr hb
    obtain ⟨ia, hia⟩ := nodeIdx_isSome_of_mem hamem
    obtain ⟨ib, hib⟩ := nodeIdx_isSome_of_mem hbmem
    obtain ⟨ya, hya, hra⟩ := reach_transfer_bwd hadj 0 ia
      (hall ia (nodeIdx_lt_length hia)) _ hx0
    obtain ⟨yb, hyb, hrb⟩ := reach_transfer_bwd hadj 0 ib
      (hall ib (nodeIdx_lt_length hib)) _ hx0
    have haa : ya = a := nodeIdx_inj hya hia
    have hbb : yb = b := nodeIdx_inj hyb hib
    rw [haa] at hra
    rw [hbb] at hrb
    exact Relation.ReflTransGen.trans (reach_symm hra) hrb

theorem all_eq_true_iff_getD (v : List Bool) :
    (v.all fun x => x == true) = true ↔
      ∀ i, i < v.length → v.getD i false = true := by
  rw [List.all_eq_true]
  constructor
  · intro h i hi
    have hmem : v.getD i false ∈ v := by
      rw [List.getD_eq_getElem _ _ hi]
      exact List.getElem_mem hi
    simpa using h _ hmem
  · intro h x hx
    obtain ⟨i, hget⟩ := List.mem_iff_get?.mp hx
    have hi : i < v.length := by
      by_contra hc
      rw [List.get?_eq_none.mpr (Nat.le_of_not_lt hc)] at hget
      cases hget
    have := h i hi
    rw [getD_of_get? hget] at this
    simp [this]

theorem isConnectedE_spec (dominoes : List Domino) (hne : dominoes ≠ []) :
    ∃ b, isConnectedE dominoes = some b ∧ (b = true ↔ specConnected dominoes) := by
  obtain ⟨M, hM, hlen, hrows, hcell⟩ := toAdjacencyMatrixE_spec dominoes
  set nodes := getNodes dominoes with hnodes
  set n := nodes.length with hn
  have hnpos : 0 < n := getNodes_length_pos hne
  have hglen : (toAdjencyList M).length = n := by
    rw [toAdjencyList_length]
    exact hlen
  have hgbound : ∀ i j, (j ∈ (toAdjencyList M).getD i []) → j < n := by
    intro i j hj
    exact cellB_lt hrows ((mem_toAdjencyList_getD M i j).mp hj)
  have hadj : ∀ p q, adjIdx (toAdjencyList M) p q ↔
      ∃ d ∈ dominoes, edgeAt nodes d p q := by
    intro p q
    rw [adjIdx_toAdjencyList]
    exact hcell p q
  obtain ⟨vis, hvis, hvlen, hvchar⟩ :=
    depthFirstSearch_all_false hglen hgbound hnpos
  refine ⟨vis.all (fun x => x == true), ?_, ?_⟩
  · simp only [isConnectedE]
    rw [hM]
    show (match depthFirstSearch (toAdjencyList M) (List.replicate n false) 0 with
      | none => none
      | some vis => some (vis.all fun x => x == true))
      = some (vis.all fun x => x == true)
    rw [hvis]
  · rw [all_eq_true_iff_getD, hvlen]
    rw [specConnected_iff_reachIdx hadj hnpos]
    constructor
    · intro h i hi
      exact (hvchar i).mp (h i hi)
    · intro h i hi
      exact (hvchar i).mpr (h i hi)

/-! ### `canChain`: totality and the Euler-circuit characterization -/

theorem canChainE_isSome (dominoes : List Domino) :
    ∃ b, canChainE dominoes = some b := by
  unfold canChainE
  split
  · exact ⟨true, rfl⟩
  · rename_i h0
    split
    · have hne : dominoes ≠ [] := by
        intro h
        rw [h] at h0
        exact h0 rfl
      obtain ⟨b, hb, _⟩ := isConnectedE_spec dominoes hne
      exact ⟨b, hb⟩
    · exact ⟨false, rfl⟩

theorem canChainE_eq_some (dominoes : List Domino) :
    canChainE dominoes = some (canChain dominoes) := by
  obtain ⟨b, hb⟩ := canChainE_isSome dominoes
  rw [canChain, hb]
  rfl

theorem canChain_char (dominoes : List Domino) :
    canChain dominoes = true ↔
      (dominoes = [] ∨ (specEvenDegrees dominoes ∧ specConnected dominoes)) := by
  unfold canChain canChainE
  rcases Decidable.em (dominoes.length = 0) with h0 | h0
  · rw [if_pos h0]
    have hnil : dominoes = [] := List.length_eq_zero.mp h0
    simp [hnil]
  · rw [if_neg h0]
    have hne : dominoes ≠ [] := by
      intro h
      rw [h] at h0
      exact h0 rfl
    cases heven : allEvenDegree dominoes with
    | true =>
      rw [if_pos rfl]
      obtain ⟨b, hb, hiff⟩ := isConnectedE_spec dominoes hne
      rw [hb]
      show b = true ↔ _
      rw [hiff]
      constructor
      · intro hconn
        exact Or.inr ⟨(allEvenDegree_iff_spec dominoes).mp heven, hconn⟩
      · rintro (h | ⟨_, hconn⟩)
        · exact absurd h hne
        · exact hconn
    | false =>
      rw [if_neg Bool.false_ne_true]
      show false = true ↔ _
      constructor
      · intro h
        cases h
      · rintro (h | ⟨he, _⟩)
        · exact absurd h hne
        · have := (allEvenDegree_iff_spec dominoes).mpr he
          rw [heven] at this
          cases this

/-! ### Invariance of `canChain` under permutation, pip swap and renaming -/

theorem canChain_eq_of_equiv {ds ds' : List Domino}
    (hnil : ds = [] ↔ ds' = [])
    (hmem : ∀ v, v ∈ flatPips ds ↔ v ∈ flatPips ds')
    (hcount : ∀ v, (flatPips ds).count v = (flatPips ds').count v)
    (hadj : ∀ x y, adjRel ds x y ↔ adjRel ds' x y) :
    canChain ds = canChain ds' := by
  have heven : specEvenDegrees ds ↔ specEvenDegrees ds' := by
    unfold specEvenDegrees
    constructor
    · intro h v hv
      rw [← hcount v]
      exact h v ((hmem v).mpr hv)
    · intro h v hv
      rw [hcount v]
      exact h v ((hmem v).mp hv)
  have hreach : ∀ x y, reach ds x y ↔ reach ds' x y := by
    intro x y
    exact ⟨Relation.ReflTransGen.mono (fun a b => (hadj a b).mp),
      Relation.ReflTransGen.mono (fun a b => (hadj a b).mpr)⟩
  have hconn : specConnected ds ↔ specConnected ds' := by
    unfold specConnected
    constructor
    · intro h a ha b hb
      exact (hreach a b).mp (h a ((hmem a).mpr ha) b ((hmem b).mpr hb))
    · intro h a ha b hb
      exact (hreach a b).mpr (h a ((hmem a).mp ha) b ((hmem b).mp hb))
  rw [Bool.eq_iff_iff, canChain_char, canChain_char]
  constructor
  · rintro (h | ⟨h1, h2⟩)
    · exact Or.inl (hnil.mp h)
    · exact Or.inr ⟨heven.mp h1, hconn.mp h2⟩
  · rintro (h | ⟨h1, h2⟩)
    · exact Or.inl (hnil.mpr h)
    · exact Or.inr ⟨heven.mpr h1, hconn.mpr h2⟩

theorem flatPips_perm {ds ds' : List Domino} (h : ds.Perm ds') :
    (flatPips ds).Perm (flatPips ds') := by
  induction h with
  | nil => exact List.Perm.refl _
  | cons d _ ih =>
    show (d.1 :: d.2 :: _).Perm (d.1 :: d.2 :: _)
    exact List.Perm.cons d.1 (List.Perm.cons d.2 ih)
  | swap d e l =>
    refine List.perm_iff_count.mpr ?_
    intro a
    show List.count a (e.1 :: e.2 :: d.1 :: d.2 :: flatPips l)
      = List.count a (d.1 :: d.2 :: e.1 :: e.2 :: flatPips l)
    simp only [List.count_cons]
    omega
  | trans _ _ ih1 ih2 => exact ih1.trans ih2

theorem flatPips_append : ∀ (l₁ l₂ : List Domino),
    flatPips (l₁ ++ l₂) = flatPips l₁ ++ flatPips l₂
  | [], l₂ => rfl
  | d :: rest, l₂ => by
    show d.1 :: d.2 :: flatPips (rest ++ l₂) = d.1 :: d.2 :: (flatPips rest ++ flatPips l₂)
    rw [flatPips_append rest l₂]

theorem flatPips_map (f : Pip → Pip) : ∀ (ds : List Domino),
    flatPips (ds.map (renameDomino f)) = (flatPips ds).map f
  | [] => rfl
  | d :: rest => by
    show f d.1 :: f d.2 :: flatPips (rest.map (renameDomino f))
      = f d.1 :: f d.2 :: (flatPips rest).map f
    rw [flatPips_map f rest]

theorem canChain_perm {ds ds' : List Domino} (h : ds.Perm ds') :
    canChain ds = canChain ds' := by
  have hfp := flatPips_perm h
  refine canChain_eq_of_equiv ?_ ?_ ?_ ?_
  · constructor
    · intro hnil
      exact (hnil ▸ h).symm.eq_nil
    · intro hnil
      exact (hnil ▸ h).eq_nil
  · intro v
    exact hfp.mem_iff
  · intro v
    exact hfp.count_eq v
  · intro x y
    unfold adjRel
    rw [h.mem_iff, h.mem_iff]

theorem canChain_swapPips (ds₁ ds₂ : List Domino) (a b : Pip) :
    canChain (ds₁ ++ (a, b) :: ds₂) = canChain (ds₁ ++ (b, a) :: ds₂) := by
  refine canChain_eq_of_equiv ?_ ?_ ?_ ?_
  · simp
  · intro v
    rw [flatPips_append, flatPips_append]
    show (v ∈ flatPips ds₁ ++ a :: b :: flatPips ds₂)
      ↔ (v ∈ flatPips ds₁ ++ b :: a :: flatPips ds₂)
    simp only [List.mem_append, List.mem_cons]
    tauto
  · intro v
    rw [flatPips_append, flatPips_append]
    show List.count v (flatPips ds₁ ++ a :: b :: flatPips ds₂)
      = List.count v (flatPips ds₁ ++ b :: a :: flatPips ds₂)
    simp only [List.count_append, List.count_cons]
    omega
  · intro x y
    unfold adjRel
    simp only [List.mem_append, List.mem_cons, Prod.mk.injEq]
    tauto

theorem canChain_map_rename {f : Pip → Pip} (hf : Function.Injective f)
    (ds : List Domino) :
    canChain (ds.map (renameDomino f)) = canChain ds := by
  have hpair : ∀ x y, (((x, y) : Domino) ∈ ds.map (renameDomino f)) ↔
      ∃ p q, ((p, q) : Domino) ∈ ds ∧ f p = x ∧ f q = y := by
    intro x y
    rw [List.mem_map]
    constructor
    · rintro ⟨d, hd, heq⟩
      refine ⟨d.1, d.2, ?_, ?_, ?_⟩
      · simpa using hd
      · exact (Prod.mk.injEq _ _ _ _ ▸ heq).1
      · exact (Prod.mk.injEq _ _ _ _ ▸ heq).2
    · rintro ⟨p, q, hpq, rfl, rfl⟩
      exact ⟨(p, q), hpq, rfl⟩
  have hadj_f : ∀ x y, adjRel (ds.map (renameDomino f)) (f x) (f y) ↔ adjRel ds x y := by
    intro x y
    unfold adjRel
    rw [hpair, hpair]
    constructor
    · rintro (⟨p, q, hpq, hp, hq⟩ | ⟨p, q, hpq, hp, hq⟩)
      · rw [← hf hp, ← hf hq]
        exact Or.inl hpq
      · rw [← hf hp, ← hf hq]
        exact Or.inr hpq
    · rintro (h | h)
      · exact Or.inl ⟨x, y, h, rfl, rfl⟩
      · exact Or.inr ⟨y, x, h, rfl, rfl⟩
  have hreach_fwd : ∀ x y, reach ds x y →
      reach (ds.map (renameDomino f)) (f x) (f y) := by
    intro x y h
    induction h with
    | refl => exact Relation.ReflTransGen.refl
    | tail hab hbc ih =>
      rename_i b c
      exact Relation.ReflTransGen.tail ih ((hadj_f b c).mpr hbc)
  have hreach_bwd : ∀ x' w, reach (ds.map (renameDomino f)) x' w →
      ∀ x, x' = f x → ∃ y, w = f y ∧ reach ds x y := by
    intro x' w h
    induction h with
    | refl =>
      intro x hx
      exact ⟨x, hx, Relation.ReflTransGen.refl⟩
    | tail hab hbc ih =>
      rename_i b c
      intro x hx
      obtain ⟨y, rfl, hr⟩ := ih x hx
      rcases hbc with hmem | hmem
      · obtain ⟨p, q, hpq, hp, hq⟩ := (hpair _ _).mp hmem
        refine ⟨q, hq.symm, Relation.ReflTransGen.tail hr ?_⟩
        rw [← hf hp]
        exact Or.inl hpq
      · obtain ⟨p, q, hpq, hp, hq⟩ := (hpair _ _).mp hmem
        refine ⟨p, hp.symm, Relation.ReflTransGen.tail hr ?_⟩
        rw [← hf hq]
        exact Or.inr hpq
  have heven : specEvenDegrees (ds.map (renameDomino f)) ↔ specEvenDegrees ds := by
    unfold specEvenDegrees
    rw [flatPips_map]
    constructor
    · intro h v hv
      have := h (f v) (List.mem_map.mpr ⟨v, hv, rfl⟩)
      rwa [List.count_map_of_injective _ f hf v] at this
    · intro h w hw
      obtain ⟨v, hv, rfl⟩ := List.mem_map.mp hw
      rw [List.count_map_of_injective _ f hf v]
      exact h v hv
  have hconn : specConnected (ds.map (renameDomino f)) ↔ specConnected ds := by
    unfold specConnected
    rw [flatPips_map]
    constructor
    · intro h a ha b hb
      have := h (f a) (List.mem_map.mpr ⟨a, ha, rfl⟩) (f b) (List.mem_map.mpr ⟨b, hb, rfl⟩)
      obtain ⟨y, hy, hr⟩ := hreach_bwd _ _ this a rfl
      rw [hf hy.symm] at hr
      exact hr
    · intro h a' ha' b' hb'
      obtain ⟨a, ha, rfl⟩ := List.mem_map.mp ha'
      obtain ⟨b, hb, rfl⟩ := List.mem_map.mp hb'
      exact hreach_fwd a b (h a ha b hb)
  have hnil : ds.map (renameDomino f) = [] ↔ ds = [] := List.map_eq_nil
  rw [Bool.eq_iff_iff, canChain_char, canChain_char]
  constructor
  · rintro (h | ⟨h1, h2⟩)
    · exact Or.inl (hnil.mp h)
    · exact Or.inr ⟨heven.mp h1, hconn.mp h2⟩
  · rintro (h | ⟨h1, h2⟩)
    · exact Or.inl (hnil.mpr h)
    · exact Or.inr ⟨heven.mpr h1, hconn.mpr h2⟩

theorem count_flatPips_erase : ∀ (ds : List Domino) (a : Pip), ((a, a) ∈ ds) →
    (flatPips ds).count a = (flatPips (ds.erase (a, a))).count a + 2
  | [], a, h => absurd h (by simp)
  | d :: rest, a, h => by
    rw [List.erase_cons]
    rcases Decidable.em (d = (a, a)) with rfl | hne
    · rw [if_pos (by simp)]
      show List.count a (a :: a :: flatPips rest) = _
      simp [List.count_cons]
    · rw [if_neg (by simpa using hne)]
      have hmem : (a, a) ∈ rest := by
        rcases List.mem_cons.mp h with heq | hmem
        · exact absurd heq.symm hne
        · exact hmem
      have ih := count_flatPips_erase rest a hmem
      show List.count a (d.1 :: d.2 :: flatPips rest)
        = List.count a (d.1 :: d.2 :: flatPips (rest.erase (a, a))) + 2
      simp only [List.count_cons]
      omega

/-! ### Claim theorems -/

/-- C1: For every finite list of dominoes, `canChain` returns true if and
only if the list is empty, or every distinct pip value occurs an even
number of times across all domino halves and the multigraph whose vertices
are the distinct pip values and whose edges are the dominoes is connected. -/
theorem canChain_iff_euler (dominoes : List Domino) :
    canChain dominoes = true ↔
      (dominoes = [] ∨ (specEvenDegrees dominoes ∧ specConnected dominoes)) :=
  canChain_char dominoes

/-- C2: `canChain` returns exactly the booleans of the spec's seven
concrete scenarios. -/
theorem canChain_concrete_scenarios :
    canChain [] = true ∧
    canChain [((1 : Pip), 1)] = true ∧
    canChain [((1 : Pip), 2)] = false ∧
    canChain [((1 : Pip), 2), (3, 1), (2, 3)] = true ∧
    canChain [((1 : Pip), 2), (4, 1), (2, 3)] = false ∧
    canChain [((1 : Pip), 1), (2, 2)] = false ∧
    canChain [((1 : Pip), 2), (2, 3), (3, 1), (2, 4), (2, 4)] = true := by
  decide

/-- C3 counterexample: for the input `[(1, 1)]` the adjacency list derived
from the matrix is `[[0]]`: vertex 1 (index 0) IS listed as its own
neighbour, contradicting the claim that a self-loop contributes no
adjacency entry. -/
theorem selfLoop_adjacency_counterexample :
    adjacencyOf [((1 : Pip), 1)] = some [[0]] ∧
      nodeIdx (getNodes [((1 : Pip), 1)]) 1 = some 0 ∧
      (0 ∈ (([[0]] : List (List Nat)).getD 0 [])) := by
  decide

/-- C3 amended: a self-loop domino `(a, a)` DOES contribute an adjacency
entry — the index of `a` appears in `a`'s own adjacency row — while the
same self-loop contributes exactly 2 to `a`'s occurrence count (removing
one copy of `(a, a)` decreases the count by exactly 2). -/
theorem selfLoop_adjacency_and_degree (ds : List Domino) (a : Pip)
    (h : (a, a) ∈ ds) :
    ∃ i, nodeIdx (getNodes ds) a = some i ∧
      ∃ g, adjacencyOf ds = some g ∧ (i ∈ g.getD i []) ∧
      (flatPips ds).count a = (flatPips (ds.erase (a, a))).count a + 2 := by
  have hmem : a ∈ getNodes ds :=
    mem_getNodes.mpr (mem_flatPips.mpr ⟨(a, a), h, Or.inl rfl⟩)
  obtain ⟨i, hi⟩ := nodeIdx_isSome_of_mem hmem
  obtain ⟨M, hM, hlen, hrows, hcell⟩ := toAdjacencyMatrixE_spec ds
  refine ⟨i, hi, toAdjencyList M, ?_, ?_, count_flatPips_erase ds a h⟩
  · unfold adjacencyOf
    rw [hM]
    rfl
  · rw [mem_toAdjencyList_getD]
    exact (hcell i i).mpr ⟨(a, a), h, i, i, hi, hi, Or.inl ⟨rfl, rfl⟩⟩

/-- C3 amended witness: the amended statement at the concrete self-loop
input `[(1, 1)]`. -/
theorem selfLoop_adjacency_and_degree_witness :
    ∃ i, nodeIdx (getNodes [((1 : Pip), 1)]) 1 = some i ∧
      ∃ g, adjacencyOf [((1 : Pip), 1)] = some g ∧ (i ∈ g.getD i []) ∧
      (flatPips [((1 : Pip), 1)]).count 1
        = (flatPips ([((1 : Pip), 1)].erase (1, 1))).count 1 + 2 :=
  selfLoop_adjacency_and_degree [((1 : Pip), 1)] 1 (by decide)

/-- C4 counterexample: called directly on the empty domino list,
`isConnected` does not return `true`: `depthFirstSearch` reads `graph[0]`
of the empty adjacency list, which is a run-time failure (modelled as
`none`). -/
theorem isConnectedE_nil_counterexample : isConnectedE [] = none := by
  decide

/-- C4 amended: `canChain` returns `some true` on the empty list without
ever invoking `isConnected` (the `dominoes.length === 0` short-circuit),
and on every nonempty list `isConnected` returns a boolean without error;
applied directly to the empty list it fails (see the counterexample). -/
theorem isConnectedE_empty_guarded :
    canChainE [] = some true ∧
      ∀ ds : List Domino, ds ≠ [] → ∃ b, isConnectedE ds = some b := by
  refine ⟨by decide, ?_⟩
  intro ds hne
  obtain ⟨b, hb, _⟩ := isConnectedE_spec ds hne
  exact ⟨b, hb⟩

/-- C4 amended witness: the guard at the empty input and a successful
`isConnected` run at the concrete nonempty input `[(1, 2)]`. -/
theorem isConnectedE_empty_guarded_witness :
    canChainE [] = some true ∧ ∃ b, isConnectedE [((1 : Pip), 2)] = some b :=
  ⟨isConnectedE_empty_guarded.1,
    isConnectedE_empty_guarded.2 [((1 : Pip), 2)] (by simp)⟩

/-- C5: `canChain` is total — on every finite list of integer pairs the
computation, with every fallible array access and non-null assertion in
its call graph modelled in the `Option` monad, returns `some` boolean:
no run-time failure is reachable. -/
theorem canChain_total (dominoes : List Domino) :
    canChainE dominoes = some (canChain dominoes) :=
  canChainE_eq_some dominoes

/-- C6: `canChain` is invariant under permutation of the domino list. -/
theorem canChain_order_invariant (ds ds' : List Domino) (h : ds.Perm ds') :
    canChain ds = canChain ds' :=
  canChain_perm h

/-- C6 witness: order-invariance at a concrete permutation pair. -/
theorem canChain_order_invariant_witness :
    (([((1 : Pip), 2), (2, 1)] : List Domino).Perm
        ([((2 : Pip), 1), (1, 2)] : List Domino)) ∧
      canChain [((1 : Pip), 2), (2, 1)] = canChain [((2 : Pip), 1), (1, 2)] :=
  ⟨List.Perm.swap ((2 : Pip), (1 : Pip)) ((1 : Pip), (2 : Pip)) [],
    canChain_order_invariant _ _
      (List.Perm.swap ((2 : Pip), (1 : Pip)) ((1 : Pip), (2 : Pip)) [])⟩

/-- C7: swapping the two pips within any single domino leaves the result
of `canChain` unchanged (edges are undirected). -/
theorem canChain_pip_swap_invariant (ds₁ ds₂ : List Domino) (a b : Pip) :
    canChain (ds₁ ++ (a, b) :: ds₂) = canChain (ds₁ ++ (b, a) :: ds₂) :=
  canChain_swapPips ds₁ ds₂ a b

/-- C8: the degree counter's map has key list exactly `getNodes` (whose
members are exactly the distinct pip values), and its counts sum to twice
the number of dominoes (handshake lemma). -/
theorem nodeCountsMap_keys_and_handshake (dominoes : List Domino) :
    (nodeCountsMap dominoes).map Prod.fst = getNodes dominoes ∧
    (∀ v, (v ∈ (nodeCountsMap dominoes).map Prod.fst) ↔ v ∈ flatPips dominoes) ∧
    ((nodeCountsMap dominoes).map Prod.snd).sum = 2 * dominoes.length := by
  refine ⟨nodeCountsMap_keys dominoes, ?_, nodeCountsMap_sum dominoes⟩
  intro v
  rw [nodeCountsMap_keys]
  exact mem_getNodes

/-- C9: the depth-first traversal terminates on every finite well-formed
adjacency structure (cycles and self-loops included): the fuel
`depthFirstSearch` hands to `dfsE` is never exhausted and the run
completes with a result; by construction it only recurses into neighbours
that were unvisited when the neighbour row was filtered. -/
theorem depthFirstSearch_terminates (graph : List (List Nat)) (n : Nat)
    (visited : List Bool) (node : Nat)
    (hglen : graph.length = n) (hvlen : visited.length = n) (hnode : node < n)
    (hgbound : ∀ i j, (j ∈ graph.getD i []) → j < n) :
    ∃ v', depthFirstSearch graph visited node = some v' := by
  unfold depthFirstSearch
  obtain ⟨v', hv', _⟩ :=
    (dfs_fuel_induction graph n hglen hgbound (visited.count false + 1)).1
      node visited hvlen hnode
      (by have := count_false_set_true_le visited node; omega)
  exact ⟨v', hv'⟩

/-- C9 witness: termination on a concrete adjacency structure containing
both a cycle and self-loops. -/
theorem depthFirstSearch_terminates_witness :
    ∃ v', depthFirstSearch [[0, 1], [0, 1]] [false, false] 0 = some v' :=
  depthFirstSearch_terminates [[0, 1], [0, 1]] 2 [false, false] 0 rfl rfl
    (by omega)
    (by
      intro i j hj
      match i with
      | 0 =>
        simp at hj
        rcases hj with rfl | rfl
        · omega
        · omega
      | 1 =>
        simp at hj
        rcases hj with rfl | rfl
        · omega
        · omega
      | (m + 2) =>
        simp [List.getD] at hj)

/-- C10: `canChain` is invariant under any injective renaming of pip
values applied to both halves of every domino: the result depends only on
the equality pattern of the pip values. -/
theorem canChain_rename_invariant (f : Pip → Pip) (hf : Function.Injective f)
    (dominoes : List Domino) :
    canChain (dominoes.map (renameDomino f)) = canChain dominoes :=
  canChain_map_rename hf dominoes

/-- C10 witness: renaming by the injective shift `x + 10` at a concrete
input. -/
theorem canChain_rename_invariant_witness :
    canChain ([((1 : Pip), 2)].map (renameDomino (fun x => x + 10)))
      = canChain [((1 : Pip), 2)] :=
  canChain_rename_invariant (fun x => x + 10)
    (fun a b h => by
      have h' : a + 10 = b + 10 := h
      exact add_right_cancel h') [((1 : Pip), 2)]

end Dominoes
